import Mathlib

/-!
Shallow embedding of the branch-and-bound 0-1 knapsack solver in src/E10.py.

Numbers are modelled as rationals.  A Python list index access that is
guarded by the length of the value list is modelled with List.getD.
The priority queue (queue.PriorityQueue with Node.__lt__ comparing bounds
reversed) pops a node of maximal bound; ties are broken towards the
earliest inserted node, matching the deterministic behaviour on the
concrete runs used below, all of which have pairwise distinct bounds at
every pop.  The unbounded Python while-loop is modelled with explicit
fuel; termination is proved separately by a measure argument.
-/

namespace E10

/-- Mirror of the Python class Node (level, value, weight, bound, taken). -/
structure Node where
  level : Int
  value : ℚ
  weight : ℚ
  bound : ℚ
  taken : List Nat
deriving DecidableEq

/-- Total value (or weight) of the items marked 1 in a 0/1 selection list,
taken positionally against the list l of per-item numbers. -/
def takenSum (l : List ℚ) (taken : List Nat) : ℚ :=
  (List.zipWith (fun t x => if t = 1 then x else 0) taken l).sum

/-- The greedy while-loop inside calculate_bound: starting at item index
level, add whole items while the running weight stays within maxW.  The
counter k stands for n - level, so k = 0 exactly when level has reached n.
Returns (bound, totalWeight, level) at loop exit. -/
def boundLoop (maxW : ℚ) (values weights : List ℚ) :
    Nat → Nat → ℚ → ℚ → ℚ × ℚ × Nat
  | 0, level, totalWeight, bound => (bound, totalWeight, level)
  | k + 1, level, totalWeight, bound =>
    if totalWeight + weights.getD level 0 ≤ maxW then
      boundLoop maxW values weights k (level + 1) (totalWeight + weights.getD level 0)
        (bound + values.getD level 0)
    else (bound, totalWeight, level)

/-- Mirror of calculate_bound(node, n, max_weight, values, weights). -/
def calculate_bound (node : Node) (n : Nat) (maxW : ℚ) (values weights : List ℚ) : ℚ :=
  if maxW ≤ node.weight then 0
  else
    let start := (node.level + 1).toNat
    let r := boundLoop maxW values weights (n - start) start node.weight node.value
    if r.2.2 < n then r.1 + (maxW - r.2.1) * (values.getD r.2.2 0 / weights.getD r.2.2 0)
    else r.1

/-- Pop a node of maximal bound from the queue (earliest such node on a tie),
returning it together with the remaining queue. -/
def popMax : List Node → Option (Node × List Node)
  | [] => none
  | x :: xs =>
    match popMax xs with
    | none => some (x, xs)
    | some (y, ys) => if x.bound < y.bound then some (y, x :: ys) else some (x, xs)

/-- The child node that takes the next item (source lines 61-67), with its
bound computed as on line 73 (calculate_bound ignores the bound field, so
computing it at construction is equivalent to the mutation in the source). -/
def childInclude (values weights : List ℚ) (n : Nat) (maxW : ℚ) (current : Node) : Node :=
  let level := current.level + 1
  let idx := level.toNat
  let nd : Node := ⟨level, current.value + values.getD idx 0,
    current.weight + weights.getD idx 0, 0, current.taken ++ [1]⟩
  { nd with bound := calculate_bound nd n maxW values weights }

/-- The child node that skips the next item (source lines 79-86). -/
def childExclude (values weights : List ℚ) (n : Nat) (maxW : ℚ) (current : Node) : Node :=
  let nd : Node := ⟨current.level + 1, current.value, current.weight, 0, current.taken ++ [0]⟩
  { nd with bound := calculate_bound nd n maxW values weights }

/-- Push a node onto the frontier only when its bound beats the incumbent
(source lines 75-76 and 88-89). -/
def pushNode (maxValue : ℚ) (q : List Node) (nd : Node) : List Node :=
  if maxValue < nd.bound then q ++ [nd] else q

/-- One iteration of the while-loop body of branch_and_bound, after the pop:
the prune check (line 56), the include branch (lines 60-76) and the exclude
branch (lines 79-89).  Returns the new queue, incumbent value and incumbent
selection. -/
def bbStep (values weights : List ℚ) (n : Nat) (maxW : ℚ) (current : Node)
    (rest : List Node) (maxValue : ℚ) (best : Option (List Nat)) :
    List Node × ℚ × Option (List Nat) :=
  if maxValue < current.bound then
    if current.level + 1 < (n : Int) then
      let tNode := childInclude values weights n maxW current
      let mv := if tNode.weight ≤ maxW ∧ maxValue < tNode.value then tNode.value else maxValue
      let bc := if tNode.weight ≤ maxW ∧ maxValue < tNode.value then some tNode.taken else best
      let q1 := pushNode mv rest tNode
      let q2 := pushNode mv q1 (childExclude values weights n maxW current)
      (q2, mv, bc)
    else
      (pushNode maxValue rest (childExclude values weights n maxW current), maxValue, best)
  else (rest, maxValue, best)

/-- The while-loop of branch_and_bound, with explicit fuel.  Returns none
only when the fuel runs out with a non-empty frontier. -/
def bbLoop (values weights : List ℚ) (n : Nat) (maxW : ℚ) :
    Nat → List Node → ℚ → Option (List Nat) → Option (ℚ × Option (List Nat))
  | 0, queue, maxValue, best =>
    match popMax queue with
    | none => some (maxValue, best)
    | some _ => none
  | fuel + 1, queue, maxValue, best =>
    match popMax queue with
    | none => some (maxValue, best)
    | some (current, rest) =>
      let s := bbStep values weights n maxW current rest maxValue best
      bbLoop values weights n maxW fuel s.1 s.2.1 s.2.2

/-- Fuel sufficient for the loop to drain the frontier (proved below). -/
def initialFuel (n : Nat) : Nat := 3 ^ (n + 1)

/-- Mirror of branch_and_bound(values, weights, max_weight): the root node
at level -1 with zero sums gets its bound, is pushed, and the loop runs. -/
def branch_and_bound (values weights : List ℚ) (maxW : ℚ) :
    Option (ℚ × Option (List Nat)) :=
  let n := values.length
  let root : Node := ⟨-1, 0, 0, calculate_bound ⟨-1, 0, 0, 0, []⟩ n maxW values weights, []⟩
  bbLoop values weights n maxW (initialFuel n) [root] 0 none

/-- All 0/1 selection lists of a given length (exhaustive enumeration). -/
def allSelections : Nat → List (List Nat)
  | 0 => [[]]
  | n + 1 => (allSelections n).map (fun s => s ++ [0]) ++ (allSelections n).map (fun s => s ++ [1])

/-- Brute-force optimum of the 0-1 knapsack instance: the maximum, over all
0/1 selections whose total weight is at most maxW, of the total value
(0 for the empty fold, matching the always-feasible empty selection when
maxW is non-negative). -/
def knapsackOpt (values weights : List ℚ) (maxW : ℚ) : ℚ :=
  ((allSelections values.length).filter (fun s => decide (takenSum weights s ≤ maxW))).foldl
    (fun a s => max a (takenSum values s)) 0

/-! Invariants of the search state.  NodeOK ties a node's stored sums to
its decision list; BestOK relates the incumbent value and selection. -/

/-- Well-formedness of a node produced by the search: its level is one less
than the number of decisions, the decision list is a 0/1 list of at most n
entries, and the stored value and weight are the sums over the items
marked 1. -/
def NodeOK (n : Nat) (values weights : List ℚ) (nd : Node) : Prop :=
  nd.level + 1 = (nd.taken.length : Int) ∧
  nd.taken.length ≤ n ∧
  (∀ x ∈ nd.taken, x = 0 ∨ x = 1) ∧
  nd.value = takenSum values nd.taken ∧
  nd.weight = takenSum weights nd.taken

/-- Relation between the incumbent value and the incumbent selection: either
nothing has been recorded (value 0, absent selection), or the selection is a
feasible 0/1 list of 1..n decisions whose value sum is the incumbent value,
which is then strictly positive. -/
def BestOK (n : Nat) (values weights : List ℚ) (maxW maxValue : ℚ)
    (best : Option (List Nat)) : Prop :=
  (best = none ∧ maxValue = 0) ∨
  (∃ sel, best = some sel ∧ maxValue = takenSum values sel ∧
    takenSum weights sel ≤ maxW ∧ 0 < maxValue ∧
    1 ≤ sel.length ∧ sel.length ≤ n ∧ ∀ x ∈ sel, x = 0 ∨ x = 1)

/-- Termination measure of a frontier: each node at decision depth d
contributes 3 to the power n + 1 - d. -/
def queueMeasure (n : Nat) (q : List Node) : Nat :=
  (q.map (fun nd => 3 ^ (n + 1 - nd.taken.length))).sum

theorem takenSum_nil (l : List ℚ) : takenSum l [] = 0 := rfl

theorem takenSum_append_one (l : List ℚ) (t : List Nat) :
    takenSum l (t ++ [1]) = takenSum l t + l.getD t.length 0 := by
  induction t generalizing l with
  | nil =>
    cases l with
    | nil => simp [takenSum]
    | cons x xs => simp [takenSum]
  | cons a t ih =>
    cases l with
    | nil => simp [takenSum]
    | cons x xs =>
      simp only [takenSum, List.cons_append, List.zipWith_cons_cons, List.sum_cons,
        List.length_cons, List.getD_cons_succ] at ih ⊢
      rw [ih, add_assoc]

theorem takenSum_append_zero (l : List ℚ) (t : List Nat) :
    takenSum l (t ++ [0]) = takenSum l t := by
  induction t generalizing l with
  | nil =>
    cases l with
    | nil => simp [takenSum]
    | cons x xs => simp [takenSum]
  | cons a t ih =>
    cases l with
    | nil => simp [takenSum]
    | cons x xs =>
      simp only [takenSum, List.cons_append, List.zipWith_cons_cons, List.sum_cons] at ih ⊢
      rw [ih]

theorem popMax_perm : ∀ (q : List Node) (c : Node) (r : List Node),
    popMax q = some (c, r) → q.Perm (c :: r) := by
  intro q
  induction q with
  | nil => intro c r h; simp [popMax] at h
  | cons x xs ih =>
    intro c r h
    cases hx : popMax xs with
    | none =>
      rw [popMax, hx] at h
      simp only [Option.some.injEq, Prod.mk.injEq] at h
      obtain ⟨rfl, rfl⟩ := h
      exact List.Perm.refl _
    | some p =>
      obtain ⟨y, ys⟩ := p
      rw [popMax, hx] at h
      dsimp only at h
      by_cases hb : x.bound < y.bound
      · rw [if_pos hb] at h
        simp only [Option.some.injEq, Prod.mk.injEq] at h
        obtain ⟨rfl, rfl⟩ := h
        exact ((ih y ys hx).cons x).trans (List.Perm.swap y x ys)
      · rw [if_neg hb] at h
        simp only [Option.some.injEq, Prod.mk.injEq] at h
        obtain ⟨rfl, rfl⟩ := h
        exact List.Perm.refl _

theorem calculate_bound_overweight (nd : Node) (n : Nat) (maxW : ℚ)
    (values weights : List ℚ) (h : maxW ≤ nd.weight) :
    calculate_bound nd n maxW values weights = 0 := by
  simp [calculate_bound, h]

theorem calculate_bound_exhausted (nd : Node) (n : Nat) (maxW : ℚ)
    (values weights : List ℚ) (h : ¬ maxW ≤ nd.weight)
    (hn : n ≤ (nd.level + 1).toNat) :
    calculate_bound nd n maxW values weights = nd.value := by
  have h0 : n - (nd.level + 1).toNat = 0 := Nat.sub_eq_zero_of_le hn
  simp only [calculate_bound, if_neg h, h0, boundLoop]
  rw [if_neg (Nat.not_lt.mpr hn)]

theorem queueMeasure_nil (n : Nat) : queueMeasure n [] = 0 := rfl

theorem queueMeasure_cons (n : Nat) (nd : Node) (q : List Node) :
    queueMeasure n (nd :: q) = 3 ^ (n + 1 - nd.taken.length) + queueMeasure n q := by
  simp [queueMeasure]

theorem queueMeasure_append (n : Nat) (q : List Node) (nd : Node) :
    queueMeasure n (q ++ [nd]) = queueMeasure n q + 3 ^ (n + 1 - nd.taken.length) := by
  simp [queueMeasure]

theorem queueMeasure_perm (n : Nat) {q q' : List Node} (h : q.Perm q') :
    queueMeasure n q = queueMeasure n q' :=
  (h.map _).sum_eq

theorem mem_pushNode {mv : ℚ} {q : List Node} {nd x : Node}
    (h : x ∈ pushNode mv q nd) : x ∈ q ∨ (mv < nd.bound ∧ x = nd) := by
  by_cases hc : mv < nd.bound
  · rw [pushNode, if_pos hc] at h
    rcases List.mem_append.1 h with h1 | h1
    · exact Or.inl h1
    · exact Or.inr ⟨hc, by simpa using h1⟩
  · rw [pushNode, if_neg hc] at h
    exact Or.inl h

theorem pushNode_of_not {mv : ℚ} {q : List Node} {nd : Node}
    (h : ¬ mv < nd.bound) : pushNode mv q nd = q := by
  rw [pushNode, if_neg h]

theorem queueMeasure_pushNode (n : Nat) (mv : ℚ) (q : List Node) (nd : Node) :
    queueMeasure n (pushNode mv q nd) ≤
      queueMeasure n q + 3 ^ (n + 1 - nd.taken.length) := by
  by_cases hc : mv < nd.bound
  · rw [pushNode, if_pos hc, queueMeasure_append]
  · rw [pushNode, if_neg hc]
    exact Nat.le_add_right _ _

theorem childInclude_level (values weights : List ℚ) (n : Nat) (maxW : ℚ) (current : Node) :
    (childInclude values weights n maxW current).level = current.level + 1 := rfl

theorem childInclude_value (values weights : List ℚ) (n : Nat) (maxW : ℚ) (current : Node) :
    (childInclude values weights n maxW current).value =
      current.value + values.getD (current.level + 1).toNat 0 := rfl

theorem childInclude_weight (values weights : List ℚ) (n : Nat) (maxW : ℚ) (current : Node) :
    (childInclude values weights n maxW current).weight =
      current.weight + weights.getD (current.level + 1).toNat 0 := rfl

theorem childInclude_taken (values weights : List ℚ) (n : Nat) (maxW : ℚ) (current : Node) :
    (childInclude values weights n maxW current).taken = current.taken ++ [1] := rfl

theorem childExclude_level (values weights : List ℚ) (n : Nat) (maxW : ℚ) (current : Node) :
    (childExclude values weights n maxW current).level = current.level + 1 := rfl

theorem childExclude_value (values weights : List ℚ) (n : Nat) (maxW : ℚ) (current : Node) :
    (childExclude values weights n maxW current).value = current.value := rfl

theorem childExclude_weight (values weights : List ℚ) (n : Nat) (maxW : ℚ) (current : Node) :
    (childExclude values weights n maxW current).weight = current.weight := rfl

theorem childExclude_taken (values weights : List ℚ) (n : Nat) (maxW : ℚ) (current : Node) :
    (childExclude values weights n maxW current).taken = current.taken ++ [0] := rfl

theorem childInclude_ok (values weights : List ℚ) (n : Nat) (maxW : ℚ) (current : Node)
    (hlev : current.level + 1 = (current.taken.length : Int))
    (hl : current.taken.length < n)
    (hbits : ∀ x ∈ current.taken, x = 0 ∨ x = 1)
    (hval : current.value = takenSum values current.taken)
    (hwt : current.weight = takenSum weights current.taken) :
    NodeOK n values weights (childInclude values weights n maxW current) := by
  have hidx : (current.level + 1).toNat = current.taken.length := by
    rw [hlev, Int.toNat_natCast]
  unfold NodeOK
  refine ⟨?_, ?_, ?_, ?_, ?_⟩
  · rw [childInclude_level, childInclude_taken, hlev]
    push_cast [List.length_append, List.length_singleton]
    ring
  · rw [childInclude_taken]
    simp only [List.length_append, List.length_singleton]
    omega
  · rw [childInclude_taken]
    intro x hx
    rcases List.mem_append.1 hx with h1 | h1
    · exact hbits x h1
    · right; simpa using h1
  · rw [childInclude_value, childInclude_taken, hidx, takenSum_append_one, hval]
  · rw [childInclude_weight, childInclude_taken, hidx, takenSum_append_one, hwt]

theorem childExclude_ok (values weights : List ℚ) (n : Nat) (maxW : ℚ) (current : Node)
    (hlev : current.level + 1 = (current.taken.length : Int))
    (hl : current.taken.length < n)
    (hbits : ∀ x ∈ current.taken, x = 0 ∨ x = 1)
    (hval : current.value = takenSum values current.taken)
    (hwt : current.weight = takenSum weights current.taken) :
    NodeOK n values weights (childExclude values weights n maxW current) := by
  unfold NodeOK
  refine ⟨?_, ?_, ?_, ?_, ?_⟩
  · rw [childExclude_level, childExclude_taken, hlev]
    push_cast [List.length_append, List.length_singleton]
    ring
  · rw [childExclude_taken]
    simp only [List.length_append, List.length_singleton]
    omega
  · rw [childExclude_taken]
    intro x hx
    rcases List.mem_append.1 hx with h1 | h1
    · exact hbits x h1
    · left; simpa using h1
  · rw [childExclude_value, childExclude_taken, takenSum_append_zero]
    exact hval
  · rw [childExclude_weight, childExclude_taken, takenSum_append_zero]
    exact hwt

theorem bbStep_spec (values weights : List ℚ) (n : Nat) (maxW : ℚ) (current : Node)
    (rest : List Node) (maxValue : ℚ) (best : Option (List Nat))
    (hcur : NodeOK n values weights current)
    (hcv : current.value ≤ maxValue)
    (hrest : ∀ nd ∈ rest, NodeOK n values weights nd ∧ nd.value ≤ maxValue)
    (hmv : 0 ≤ maxValue)
    (hbest : BestOK n values weights maxW maxValue best) :
    (∀ nd ∈ (bbStep values weights n maxW current rest maxValue best).1,
        NodeOK n values weights nd ∧
        nd.value ≤ (bbStep values weights n maxW current rest maxValue best).2.1) ∧
    0 ≤ (bbStep values weights n maxW current rest maxValue best).2.1 ∧
    BestOK n values weights maxW (bbStep values weights n maxW current rest maxValue best).2.1
      (bbStep values weights n maxW current rest maxValue best).2.2 ∧
    queueMeasure n (bbStep values weights n maxW current rest maxValue best).1 +
        3 ^ (n - current.taken.length) ≤
      queueMeasure n rest + 3 ^ (n + 1 - current.taken.length) := by
  obtain ⟨hlev, hlen, hbits, hval, hwt⟩ := hcur
  have hpowle : (3:ℕ) ^ (n - current.taken.length) ≤ 3 ^ (n + 1 - current.taken.length) :=
    Nat.pow_le_pow_right (by norm_num) (by omega)
  by_cases hprune : maxValue < current.bound
  · by_cases hl : current.taken.length < n
    · -- both children are built
      have hlInt : current.level + 1 < (n : Int) := by
        rw [hlev]; exact_mod_cast hl
      have htOK : NodeOK n values weights (childInclude values weights n maxW current) :=
        childInclude_ok values weights n maxW current hlev hl hbits hval hwt
      have heOK : NodeOK n values weights (childExclude values weights n maxW current) :=
        childExclude_ok values weights n maxW current hlev hl hbits hval hwt
      simp only [bbStep, if_pos hprune, if_pos hlInt]
      set tN := childInclude values weights n maxW current with htN
      set eN := childExclude values weights n maxW current with heN
      have htlen : tN.taken.length = current.taken.length + 1 := by
        rw [htN, childInclude_taken]
        simp
      have helen : eN.taken.length = current.taken.length + 1 := by
        rw [heN, childExclude_taken]
        simp
      have heval : eN.value = current.value := by rw [heN, childExclude_value]
      have hpow3 : (3:ℕ) ^ (n + 1 - current.taken.length) =
          3 * 3 ^ (n - current.taken.length) := by
        rw [show n + 1 - current.taken.length = (n - current.taken.length) + 1 from by omega,
          pow_succ, mul_comm]
      by_cases hupd : tN.weight ≤ maxW ∧ maxValue < tN.value
      · simp only [if_pos hupd]
        have hmvle : maxValue ≤ tN.value := le_of_lt hupd.2
        have hmeasure : queueMeasure n (pushNode tN.value (pushNode tN.value rest tN) eN) +
            3 ^ (n - current.taken.length) ≤
            queueMeasure n rest + 3 ^ (n + 1 - current.taken.length) := by
          have hm1 := queueMeasure_pushNode n tN.value rest tN
          have hm2 := queueMeasure_pushNode n tN.value (pushNode tN.value rest tN) eN
          rw [htlen] at hm1
          rw [helen] at hm2
          simp only [Nat.add_sub_add_right] at hm1 hm2
          omega
        refine ⟨?_, le_trans hmv hmvle, ?_, hmeasure⟩
        · intro nd hnd
          rcases mem_pushNode hnd with h2 | ⟨hp, rfl⟩
          · rcases mem_pushNode h2 with h3 | ⟨hp1, rfl⟩
            · exact ⟨(hrest nd h3).1, le_trans (hrest nd h3).2 hmvle⟩
            · exact ⟨htOK, le_refl _⟩
          · exact ⟨heOK, by rw [heval]; exact le_trans hcv hmvle⟩
        · refine Or.inr ⟨tN.taken, rfl, htOK.2.2.2.1, ?_, lt_of_le_of_lt hmv hupd.2, ?_,
            htOK.2.1, htOK.2.2.1⟩
          · rw [← htOK.2.2.2.2]; exact hupd.1
          · omega
      · simp only [if_neg hupd]
        have htVle : maxValue < tN.bound → tN.value ≤ maxValue := by
          intro hp1
          rcases not_and_or.1 hupd with hnw | hnv
          · exfalso
            have hb0 : tN.bound = 0 := by
              rw [htN]
              exact calculate_bound_overweight _ n maxW values weights
                (le_of_lt (not_le.1 hnw))
            rw [hb0] at hp1
            exact absurd (lt_of_le_of_lt hmv hp1) (lt_irrefl 0)
          · exact not_lt.1 hnv
        have hmeasure : queueMeasure n (pushNode maxValue (pushNode maxValue rest tN) eN) +
            3 ^ (n - current.taken.length) ≤
            queueMeasure n rest + 3 ^ (n + 1 - current.taken.length) := by
          have hm1 := queueMeasure_pushNode n maxValue rest tN
          have hm2 := queueMeasure_pushNode n maxValue (pushNode maxValue rest tN) eN
          rw [htlen] at hm1
          rw [helen] at hm2
          simp only [Nat.add_sub_add_right] at hm1 hm2
          omega
        refine ⟨?_, hmv, hbest, hmeasure⟩
        intro nd hnd
        rcases mem_pushNode hnd with h2 | ⟨hp, rfl⟩
        · rcases mem_pushNode h2 with h3 | ⟨hp1, rfl⟩
          · exact hrest nd h3
          · exact ⟨htOK, htVle hp1⟩
        · exact ⟨heOK, by rw [heval]; exact hcv⟩
    · -- level has reached n: the exclude child is built but never pushed
      have hcl : current.taken.length = n := by omega
      have hlInt : ¬ current.level + 1 < (n : Int) := by
        rw [hlev]
        exact_mod_cast hl
      have hnopush : ¬ maxValue < (childExclude values weights n maxW current).bound := by
        by_cases how : maxW ≤ current.weight
        · have hb0 : (childExclude values weights n maxW current).bound = 0 :=
            calculate_bound_overweight _ n maxW values weights how
          rw [hb0]
          exact not_lt.2 hmv
        · have hbv : (childExclude values weights n maxW current).bound = current.value :=
            calculate_bound_exhausted _ n maxW values weights how
              (by show n ≤ (current.level + 1 + 1).toNat; omega)
          rw [hbv]
          exact not_lt.2 hcv
      simp only [bbStep, if_pos hprune, if_neg hlInt, pushNode_of_not hnopush]
      exact ⟨hrest, hmv, hbest, by omega⟩
  · simp only [bbStep, if_neg hprune]
    exact ⟨hrest, hmv, hbest, by omega⟩

theorem bbLoop_main (values weights : List ℚ) (n : Nat) (maxW : ℚ) :
    ∀ (fuel : Nat) (queue : List Node) (maxValue : ℚ) (best : Option (List Nat)),
      (∀ nd ∈ queue, NodeOK n values weights nd ∧ nd.value ≤ maxValue) →
      0 ≤ maxValue →
      BestOK n values weights maxW maxValue best →
      queueMeasure n queue ≤ fuel →
      ∃ v b, bbLoop values weights n maxW fuel queue maxValue best = some (v, b) ∧
        0 ≤ v ∧ BestOK n values weights maxW v b := by
  intro fuel
  induction fuel with
  | zero =>
    intro queue maxValue best hq h0 hb hm
    have hqnil : queue = [] := by
      cases queue with
      | nil => rfl
      | cons x xs =>
        exfalso
        have hpos : 0 < (3:ℕ) ^ (n + 1 - x.taken.length) := by positivity
        rw [queueMeasure_cons] at hm
        omega
    subst hqnil
    exact ⟨maxValue, best, rfl, h0, hb⟩
  | succ fuel ih =>
    intro queue maxValue best hq h0 hb hm
    cases hpop : popMax queue with
    | none =>
      refine ⟨maxValue, best, ?_, h0, hb⟩
      rw [bbLoop, hpop]
    | some cr =>
      obtain ⟨current, rest⟩ := cr
      have hperm := popMax_perm queue current rest hpop
      have hcurmem : current ∈ queue := hperm.mem_iff.2 (List.mem_cons_self _ _)
      have hcur := (hq current hcurmem).1
      have hcv := (hq current hcurmem).2
      have hrest : ∀ nd ∈ rest, NodeOK n values weights nd ∧ nd.value ≤ maxValue :=
        fun nd hnd => hq nd (hperm.mem_iff.2 (List.mem_cons_of_mem _ hnd))
      obtain ⟨hq', h0', hb', hmeas'⟩ :=
        bbStep_spec values weights n maxW current rest maxValue best hcur hcv hrest h0 hb
      have hPm : queueMeasure n queue =
          3 ^ (n + 1 - current.taken.length) + queueMeasure n rest := by
        rw [queueMeasure_perm n hperm, queueMeasure_cons]
      have hApos : 0 < (3:ℕ) ^ (n - current.taken.length) := by positivity
      have hfuel :
          queueMeasure n (bbStep values weights n maxW current rest maxValue best).1 ≤ fuel := by
        omega
      have := ih (bbStep values weights n maxW current rest maxValue best).1
        (bbStep values weights n maxW current rest maxValue best).2.1
        (bbStep values weights n maxW current rest maxValue best).2.2 hq' h0' hb' hfuel
      obtain ⟨v, b, hrun, hv0, hvb⟩ := this
      refine ⟨v, b, ?_, hv0, hvb⟩
      rw [bbLoop, hpop]
      exact hrun

theorem branch_and_bound_spec (values weights : List ℚ) (maxW : ℚ) :
    ∃ v b, branch_and_bound values weights maxW = some (v, b) ∧ 0 ≤ v ∧
      BestOK values.length values weights maxW v b := by
  have hroot : NodeOK values.length values weights
      ⟨-1, 0, 0, calculate_bound ⟨-1, 0, 0, 0, []⟩ values.length maxW values weights, []⟩ := by
    unfold NodeOK
    refine ⟨by simp, by simp, by simp, rfl, rfl⟩
  have hq : ∀ nd ∈ [(⟨-1, 0, 0,
      calculate_bound ⟨-1, 0, 0, 0, []⟩ values.length maxW values weights, []⟩ : Node)],
      NodeOK values.length values weights nd ∧ nd.value ≤ 0 := by
    intro nd hnd
    rw [List.mem_singleton] at hnd
    subst hnd
    exact ⟨hroot, le_refl _⟩
  have hm : queueMeasure values.length [(⟨-1, 0, 0,
      calculate_bound ⟨-1, 0, 0, 0, []⟩ values.length maxW values weights, []⟩ : Node)] ≤
      initialFuel values.length := by
    rw [queueMeasure_cons, queueMeasure_nil, initialFuel]
    simp
  exact bbLoop_main values weights values.length maxW (initialFuel values.length) _ 0 none
    hq (le_refl 0) (Or.inl ⟨rfl, rfl⟩) hm

/-! Claim theorems. -/

/-- Claim C1 (code bug): on values [10, 1, 100], weights [5, 5, 5], capacity
10, branch_and_bound returns best_value 101 (selection [0, 1, 1]), but the
exhaustive brute-force optimum over all subsets of weight at most 10 is 110
(items 0 and 2).  The greedy walk of calculate_bound visits items in index
order instead of by value density, so the include-item-0 subtree gets bound
11 and is pruned even though it contains the optimum. -/
theorem c1_optimality_fails :
    branch_and_bound [10, 1, 100] [5, 5, 5] 10 = some (101, some [0, 1, 1]) ∧
    knapsackOpt [10, 1, 100] [5, 5, 5] 10 = 110 ∧ (101 : ℚ) ≠ 110 := by decide!

/-- Claim C2 (code bug): calculate_bound underestimates.  For the root node
of the instance values [1, 100], weights [10, 10], max_weight 10, the
computed bound is 1, yet the completion [0, 1] of the root is feasible
(weight 10 at most 10) and has total value 100, so the bound is strictly
below the value of a feasible completion, contradicting its docstring. -/
theorem c2_bound_underestimates :
    calculate_bound ⟨-1, 0, 0, 0, []⟩ 2 10 [1, 100] [10, 10] = 1 ∧
    takenSum [10, 10] [0, 1] ≤ 10 ∧
    takenSum [1, 100] [0, 1] = 100 ∧
    calculate_bound ⟨-1, 0, 0, 0, []⟩ 2 10 [1, 100] [10, 10] <
      takenSum [1, 100] [0, 1] := by decide!

/-- Claim C3 counterexample: on empty inputs the code returns best_selection
None (absent), not an empty selection list. -/
theorem c3_counterexample :
    branch_and_bound ([] : List ℚ) [] 10 = some (0, none) ∧
    branch_and_bound ([] : List ℚ) [] 10 ≠ some (0, some []) := by decide!

/-- Claim C3 (amended): for empty values and weights and any non-negative
capacity, branch_and_bound returns best_value 0 together with an absent
(None) selection. -/
theorem c3_empty_input (maxW : ℚ) (hc : 0 ≤ maxW) :
    branch_and_bound [] [] maxW = some (0, none) := by
  have hcb : calculate_bound ⟨-1, 0, 0, 0, []⟩ 0 maxW [] [] = 0 := by
    unfold calculate_bound
    split
    · rfl
    · rfl
  show bbLoop [] [] 0 maxW (initialFuel 0)
    [⟨-1, 0, 0, calculate_bound ⟨-1, 0, 0, 0, []⟩ 0 maxW [] [], []⟩] 0 none = some (0, none)
  rw [hcb]
  rfl

/-- Claim C3 witness: the amended statement at capacity 10. -/
theorem c3_empty_input_witness :
    0 ≤ (10 : ℚ) ∧ branch_and_bound [] [] 10 = some (0, none) :=
  ⟨by norm_num, c3_empty_input 10 (by norm_num)⟩

/-- Claim C4 counterexample: for values [5], weights [30], capacity 10 the
result is (0, None), not (0, [0]); and for values [5, 1], weights [3, 10],
capacity 10 the returned selection is [1], of length 1, not of length
values.length = 2. -/
theorem c4_counterexample :
    branch_and_bound [5] [30] 10 = some (0, none) ∧
    branch_and_bound [5, 1] [3, 10] 10 = some (5, some [1]) := by decide!

/-- Claim C4 (amended): for every valid non-empty input, the returned
best_selection is either absent or an ordered 0/1 sequence whose length is
between 1 and values.length (it can be a strict prefix of the decision
vector); and for values [5], weights [30], capacity 10 the result is
(0, None). -/
theorem c4_output_shape (values weights : List ℚ) (maxW : ℚ)
    (hne : values ≠ []) (hlen : values.length = weights.length)
    (hw : ∀ w ∈ weights, 0 < w) (hv : ∀ x ∈ values, 0 ≤ x) (hc : 0 ≤ maxW)
    (v : ℚ) (b : Option (List Nat))
    (h : branch_and_bound values weights maxW = some (v, b)) :
    (∀ sel, b = some sel → (∀ x ∈ sel, x = 0 ∨ x = 1) ∧
      1 ≤ sel.length ∧ sel.length ≤ values.length) ∧
    branch_and_bound [5] [30] 10 = some (0, none) := by
  obtain ⟨v', b', heq, h0, hbest⟩ := branch_and_bound_spec values weights maxW
  rw [h] at heq
  obtain ⟨rfl, rfl⟩ : v = v' ∧ b = b' := by simpa using heq
  constructor
  · intro sel hsel
    rcases hbest with ⟨hbn, hv0⟩ | ⟨sel₀, hbs, hveq, hwle, hpos, hlen1, hlen2, hbits⟩
    · rw [hbn] at hsel
      exact Option.noConfusion hsel
    · rw [hbs] at hsel
      obtain rfl : sel₀ = sel := by simpa using hsel
      exact ⟨hbits, hlen1, hlen2⟩
  · decide!

/-- Claim C4 witness: the amended statement applied to values [5],
weights [3], capacity 10, whose result is (5, [1]). -/
theorem c4_output_shape_witness :
    (∀ sel, (some [1] : Option (List Nat)) = some sel → (∀ x ∈ sel, x = 0 ∨ x = 1) ∧
      1 ≤ sel.length ∧ sel.length ≤ ([5] : List ℚ).length) ∧
    branch_and_bound [5] [30] 10 = some (0, none) :=
  c4_output_shape [5] [3] 10 (by simp) (by decide) (by decide) (by decide) (by norm_num)
    5 (some [1]) (by decide!)

/-- Claim C5 counterexample: values [5], weights [-1], capacity 10 is an
input with a non-positive weight, and branch_and_bound returns a result on
it instead of failing. -/
theorem c5_counterexample :
    (∃ w ∈ ([-1] : List ℚ), w ≤ 0) ∧ branch_and_bound [5] [-1] 10 ≠ none :=
  ⟨⟨-1, by simp, by norm_num⟩, by decide!⟩

/-- Claim C5 (amended): branch_and_bound performs no validation of weights;
an item with non-positive weight is accepted and the search runs to
completion with a normal result: values [5], weights [-1], capacity 10
returns (5, [1]), and values [5], weights [0], capacity 10 likewise
returns (5, [1]) (a zero-weight item always fits, so the greedy walk takes
it fully and no fractional division over it occurs on this input). -/
theorem c5_nonpositive_weight_result :
    branch_and_bound [5] [-1] 10 = some (5, some [1]) ∧
    branch_and_bound [5] [0] 10 = some (5, some [1]) := by decide!

/-- Claim C6 counterexample: values [5] and weights [3, 100] have different
lengths, yet branch_and_bound returns a normal result instead of failing
fast before the search. -/
theorem c6_counterexample :
    ([5] : List ℚ).length ≠ ([3, 100] : List ℚ).length ∧
    branch_and_bound [5] [3, 100] 10 = some (5, some [1]) :=
  ⟨by simp, by decide!⟩

/-- Claim C6 (amended): branch_and_bound never checks the two lengths; the
item count is values.length, so surplus entries of weights are silently
ignored and the mismatched input behaves exactly like the truncated one. -/
theorem c6_extra_weights_ignored :
    branch_and_bound [5] [3, 100] 10 = some (5, some [1]) ∧
    branch_and_bound [5] [3, 100] 10 = branch_and_bound [5] [3] 10 := by decide!

/-- Claim C7: for every valid input, when branch_and_bound returns a present
selection, the total weight of the items marked 1 in it is at most the
capacity. -/
theorem c7_feasibility (values weights : List ℚ) (maxW : ℚ)
    (hlen : values.length = weights.length) (hw : ∀ w ∈ weights, 0 < w)
    (hv : ∀ x ∈ values, 0 ≤ x) (hc : 0 ≤ maxW) (v : ℚ) (sel : List Nat)
    (h : branch_and_bound values weights maxW = some (v, some sel)) :
    takenSum weights sel ≤ maxW := by
  obtain ⟨v', b', heq, h0, hbest⟩ := branch_and_bound_spec values weights maxW
  rw [h] at heq
  obtain ⟨rfl, rfl⟩ : v = v' ∧ (some sel : Option (List Nat)) = b' := by simpa using heq
  rcases hbest with ⟨hbn, hv0⟩ | ⟨sel₀, hbs, hveq, hwle, hpos, hlen1, hlen2, hbits⟩
  · exact Option.noConfusion hbn
  · obtain rfl : sel₀ = sel := by simpa using hbs.symm
    exact hwle

/-- Claim C7 witness: on values [5], weights [3], capacity 10 the returned
selection [1] has weight 3 at most 10. -/
theorem c7_feasibility_witness : takenSum [3] [1] ≤ (10 : ℚ) :=
  c7_feasibility [5] [3] 10 (by simp) (by decide) (by decide) (by norm_num) 5 [1] (by decide!)

/-- Claim C8: for every valid input, when branch_and_bound returns a present
selection, the total value of the items marked 1 in it equals the returned
best_value. -/
theorem c8_selection_consistency (values weights : List ℚ) (maxW : ℚ)
    (hlen : values.length = weights.length) (hw : ∀ w ∈ weights, 0 < w)
    (hv : ∀ x ∈ values, 0 ≤ x) (hc : 0 ≤ maxW) (v : ℚ) (sel : List Nat)
    (h : branch_and_bound values weights maxW = some (v, some sel)) :
    takenSum values sel = v := by
  obtain ⟨v', b', heq, h0, hbest⟩ := branch_and_bound_spec values weights maxW
  rw [h] at heq
  obtain ⟨rfl, rfl⟩ : v = v' ∧ (some sel : Option (List Nat)) = b' := by simpa using heq
  rcases hbest with ⟨hbn, hv0⟩ | ⟨sel₀, hbs, hveq, hwle, hpos, hlen1, hlen2, hbits⟩
  · exact Option.noConfusion hbn
  · obtain rfl : sel₀ = sel := by simpa using hbs.symm
    exact hveq.symm

/-- Claim C8 witness: on values [7], weights [2], capacity 10 the returned
best_value 7 equals the value of the returned selection [1]. -/
theorem c8_selection_consistency_witness : takenSum [7] [1] = (7 : ℚ) :=
  c8_selection_consistency [7] [2] 10 (by simp) (by decide) (by decide) (by norm_num)
    7 [1] (by decide!)

/-- Claim C9: for every valid input, the search loop terminates: within the
explicit fuel 3 to the power n + 1 the frontier drains and branch_and_bound
returns a result (it never hits the fuel cut-off). -/
theorem c9_termination (values weights : List ℚ) (maxW : ℚ)
    (hlen : values.length = weights.length) (hw : ∀ w ∈ weights, 0 < w)
    (hv : ∀ x ∈ values, 0 ≤ x) (hc : 0 ≤ maxW) :
    ∃ v b, branch_and_bound values weights maxW = some (v, b) := by
  obtain ⟨v, b, heq, h0, hbest⟩ := branch_and_bound_spec values weights maxW
  exact ⟨v, b, heq⟩

/-- Claim C9 witness: the search terminates on values [1], weights [1],
capacity 2. -/
theorem c9_termination_witness : ∃ v b, branch_and_bound [1] [1] 2 = some (v, b) :=
  c9_termination [1] [1] 2 (by simp) (by decide) (by decide) (by norm_num)

/-- Claim C10: for every valid input with non-negative values, the returned
selection is absent exactly when the returned best_value is 0. -/
theorem c10_absent_iff_zero (values weights : List ℚ) (maxW : ℚ)
    (hlen : values.length = weights.length) (hw : ∀ w ∈ weights, 0 < w)
    (hv : ∀ x ∈ values, 0 ≤ x) (hc : 0 ≤ maxW) (v : ℚ) (b : Option (List Nat))
    (h : branch_and_bound values weights maxW = some (v, b)) :
    b = none ↔ v = 0 := by
  obtain ⟨v', b', heq, h0, hbest⟩ := branch_and_bound_spec values weights maxW
  rw [h] at heq
  obtain ⟨rfl, rfl⟩ : v = v' ∧ b = b' := by simpa using heq
  rcases hbest with ⟨hbn, hv0⟩ | ⟨sel₀, hbs, hveq, hwle, hpos, hlen1, hlen2, hbits⟩
  · simp [hbn, hv0]
  · constructor
    · intro hbn
      rw [hbs] at hbn
      exact Option.noConfusion hbn
    · intro hv0
      rw [hv0] at hpos
      exact absurd hpos (lt_irrefl 0)

/-- Claim C10 witness: on values [5], weights [30], capacity 10 the result
is best_value 0 with an absent selection, and the equivalence holds. -/
theorem c10_absent_iff_zero_witness :
    (none : Option (List Nat)) = none ↔ (0 : ℚ) = 0 :=
  c10_absent_iff_zero [5] [30] 10 (by simp) (by decide) (by decide) (by norm_num)
    0 none (by decide!)

end E10
